import Mathlib

/-!
Verification of the `Demucs` bit-regression model defined in
`src/BitRegressionModel.py`.

The development shallowly embeds the integer geometry of the network
(`valid_length`, the encoder/decoder time-length pipeline, the constructor's
module layout) and the dataflow of `forward`.  Machine integers are modelled
as `Int`/`Nat` (Python ints are unbounded, so no wraparound is needed);
fallible tensor operations return `Option`/`Except`.
-/

/-! ## Definitions -/

/-- Ceiling division `math.ceil(a / b)` for a positive divisor `b`, as used in
`Demucs.valid_length`.  For `b > 0`, `-(-a / b)` (with `/` the Euclidean
division of `Int`, which is floor division for positive divisors) equals
`⌈a / b⌉`. -/
def cdiv (a b : Int) : Int := -(-a / b)

/-- One encoder step of `Demucs.valid_length` (line 177-178 of the source):
`length = math.ceil((length - kernel_size) / stride) + 1; length = max(length, 1)`. -/
def encStepC (k s x : Int) : Int := max (cdiv (x - k) s + 1) 1

/-- One decoder step of `Demucs.valid_length` (line 180 of the source):
`length = (length - 1) * stride + kernel_size`. -/
def decStepC (k s x : Int) : Int := (x - 1) * s + k

/-- `Demucs.valid_length` (lines 166-182 of the source), transcribed loop by
loop: scale by the resample factor (`math.ceil(length * resample)` is exact on
integers), run `depth` encoder steps, run `depth` decoder steps, then divide
by the resample factor rounding up. -/
def valid_length (depth : Nat) (k s r L : Int) : Int :=
  let l1 : Int := L * r
  let l2 : Int := (List.range depth).foldl (fun len _ => max (cdiv (len - k) s + 1) 1) l1
  let l3 : Int := (List.range depth).foldl (fun len _ => (len - 1) * s + k) l2
  cdiv l3 r

/-- The `valid_length` recipe written as a composition of the named stage maps:
scale, `depth`-fold encoder contraction, `depth`-fold decoder expansion,
ceiling division by the resample factor. -/
def validLengthRecipe (depth : Nat) (k s r L : Int) : Int :=
  cdiv ((decStepC k s)^[depth] ((encStepC k s)^[depth] (L * r))) r

/-- The per-stage encoder map exactly as the specification words it:
`floor((L - kernel_size)/stride) + 1`, floored below at 1.  (The code instead
uses a ceiling; this definition exists only to compare the spec's wording with
the source.) -/
def encStepFloorSpec (k s x : Int) : Int := max ((x - k) / s + 1) 1

/-- `valid_length` as the specification describes it, with the floor-based
per-stage encoder map.  Used only to refute the spec's wording. -/
def validLengthFloorSpec (depth : Nat) (k s r L : Int) : Int :=
  cdiv ((decStepC k s)^[depth] ((encStepFloorSpec k s)^[depth] (L * r))) r

/-- Output time length of `nn.Conv1d` with kernel `k` and stride `s` (valid
mode): `(L - k)/s + 1` with floor division.  PyTorch raises when the input is
shorter than the kernel, modelled as `none`. -/
def convLen (k s L : Nat) : Option Nat :=
  if L < k then none else some ((L - k) / s + 1)

/-- Output time length of `nn.ConvTranspose1d` with kernel `k` and stride `s`:
`(L - 1)*s + k`; an empty time axis is a framework error, modelled as
`none`. -/
def tconvLen (k s L : Nat) : Option Nat :=
  if L = 0 then none else some ((L - 1) * s + k)

/-- Time lengths through the encoder loop of `Demucs.forward` (lines 206-209
of the source): each stage applies the strided convolution and the pointwise
(kernel-1) convolution (the ReLU/GLU activations do not change the time
axis), and pushes its output on the skip list.  Returns the final length
together with the skip lengths in push order (head = first stage). -/
def encPhase (k s : Nat) : Nat → Nat → Option (Nat × List Nat)
  | 0, L => some (L, [])
  | n + 1, L =>
      match convLen k s L with
      | none => none
      | some l1 =>
          match convLen 1 1 l1 with
          | none => none
          | some l2 =>
              match encPhase k s n l2 with
              | none => none
              | some (lf, sk) => some (lf, l2 :: sk)

/-- Time length of `x + skip[..., :x.shape[-1]]` (line 215): the skip is
truncated to `min skip L` trailing samples; the sum is defined (by exact
match or trailing broadcast of a size-1 axis) only when the truncated length
equals `L` or is 1, and the result always has the feature map's length
`L`. -/
def addSkipLen (skip L : Nat) : Option Nat :=
  if min skip L = L ∨ min skip L = 1 then some L else none

/-- One decoder stage's time length (lines 213-216): add the truncated popped
skip, then apply the decode block (pointwise convolution, activation, strided
transposed convolution; a trailing ReLU does not change the time axis). -/
def decStepLen (k s skip L : Nat) : Option Nat :=
  match addSkipLen skip L with
  | none => none
  | some la =>
      match convLen 1 1 la with
      | none => none
      | some lb => tconvLen k s lb

/-- Time lengths through the decoder loop of `Demucs.forward` (lines
213-216); the skip list is consumed head first, the caller passes the reverse
of the push order, matching `skips.pop(-1)`. -/
def decPhase (k s : Nat) : List Nat → Nat → Option Nat
  | [], L => some L
  | skip :: rest, L =>
      match decStepLen k s skip L with
      | none => none
      | some l1 => decPhase k s rest l1

/-- `decSafe k s skips L` holds when, running the decoder from length `L`,
every stage's popped skip length is at least the current feature-map length
(so the skip, never the feature map, is truncated by the addition). -/
def decSafe (k s : Nat) : List Nat → Nat → Prop
  | [], _ => True
  | skip :: rest, L => L ≤ skip ∧ decSafe k s rest ((L - 1) * s + k)

/-- The decoder time lengths ignoring the skips entirely: each stage maps `L`
to `(L-1)*stride + kernel`.  `decPhase` agreeing with this expresses that no
skip addition ever changed the feature-map length. -/
def dlen (k s : Nat) : List Nat → Nat → Nat
  | [], L => L
  | _ :: rest, L => dlen k s rest ((L - 1) * s + k)

/-- Modelled from the spec: `upsample2`, imported from the repository's
`.resample` module which is not under `src/`, doubles the time axis
("factor-2 polyphase doubling"); `resample ∈ {2,4}` applies it once or twice
(lines 201-205). -/
def upLens (r L : Nat) : Nat :=
  if r = 2 then 2 * L else if r = 4 then 2 * (2 * L) else L

/-- Modelled from the spec: `downsample2`, from the missing `.resample`
module, is the matching inverse halving of the time axis (rounding up on an
odd length); applied once or twice for `resample ∈ {2,4}` (lines 217-221). -/
def downLens (r L : Nat) : Nat :=
  if r = 2 then (L + 1) / 2 else if r = 4 then ((L + 1) / 2 + 1) / 2 else L

/-- Time length of `Demucs.forward` up to and including the truncation
`x = x[..., :length]` (lines 198-223): pad to `valid_length`, upsample,
encoder stages, LSTM (length preserving), decoder stages with skip additions,
downsample, truncate to the original length `L`. -/
def forwardTruncLen (depth k s r L : Nat) : Option Nat :=
  match encPhase k s depth
      (upLens r (valid_length depth (k : Int) (s : Int) (r : Int) (L : Int)).toNat) with
  | none => none
  | some (lf, sk) =>
      match decPhase k s sk.reverse lf with
      | none => none
      | some ld => some (min (downLens r ld) L)

/-- Per-batch-element size of the first head's flattened output (lines
130-131 and 225-229): `output_bit` is a convolution with
`n_bits // (40960 // kernel_out)` output channels and kernel = stride =
`kernel_out`; transposing and flattening time-major gives channels × frames
entries.  The Python integer divisions raise `ZeroDivisionError` when
`kernel_out = 0` or `kernel_out > 40960`, modelled as `none`. -/
def headBits (n_bits kernel_out L : Nat) : Option Nat :=
  if kernel_out = 0 then none
  else if 40960 / kernel_out = 0 then none
  else
    match convLen kernel_out kernel_out L with
    | none => none
    | some frames => some (n_bits / (40960 / kernel_out) * frames)

/-- Per-batch-element size of the flattened first-head output bound to `x`
at line 229 — the value that `return std * x` (line 241) names and the only
candidate for `forward`'s result.  (The v2 block at lines 234-235 applies
`output_bit1` and `transpose(·,1,2)` to this 2-D tensor and raises on every
call, so `forward` as written never actually returns; this size is the
output size of the spec's designed pass.) -/
def forwardBits (depth k s r n_bits kernel_out L : Nat) : Option Nat :=
  match forwardTruncLen depth k s r L with
  | none => none
  | some lt => headBits n_bits kernel_out lt

/-- One submodule of an encoder/decoder block as allocated by the
constructor, recording the architecture-level data: `conv1d cin cout k s`,
`convTr1d cin cout k s`, the ReLU and the GLU activations. -/
inductive Layer where
  | conv1d : Nat → Nat → Nat → Nat → Layer
  | convTr1d : Nat → Nat → Nat → Nat → Layer
  | relu : Layer
  | glu : Layer
  deriving DecidableEq

/-- The activation chosen at line 125: `nn.GLU(1) if glu else nn.ReLU()`. -/
def activationOf (glu : Bool) : Layer := if glu then Layer.glu else Layer.relu

/-- The module layout produced by `Demucs.__init__`. -/
structure DemucsModel where
  encoder : List (List Layer)
  decoder : List (List Layer)
  lstm_dim : Nat
  output_bit : Layer
  output_bit1 : Layer
  output_bit2 : Layer
  deriving DecidableEq

/-- Constructor arguments of `Demucs` relevant to the architecture.  `growth`
is modelled as an integer: the Python default is 2 and the update
`hidden = min(int(growth * hidden), max_hidden)` agrees with integer
multiplication for integer growth values. -/
structure Config where
  chin : Nat
  chout : Nat
  hidden : Nat
  depth : Nat
  kernel_size : Nat
  stride : Nat
  resample : Nat
  growth : Nat
  max_hidden : Nat
  glu : Bool
  n_bits : Nat
  kernel_out : Nat
  deriving DecidableEq

/-- The encoder/decoder construction loop (lines 141-160): iteration `index`
appends an encode block `[Conv1d(chin, hidden, k, s), ReLU,
Conv1d(hidden, hidden*ch_scale, 1), activation]` to the encoder, inserts a
decode block `[Conv1d(hidden, ch_scale*hidden, 1), activation,
ConvTranspose1d(hidden, chout, k, s)]` (plus a trailing ReLU when
`index > 0`) at the front of the decoder, then sets `chout := hidden`,
`chin := hidden`, `hidden := min (growth*hidden) max_hidden`.  Recursion is
on the remaining iteration count, carrying the loop index and the mutable
`chin`, `chout`, `hidden`; returns (encoder, decoder, final chin). -/
def encDecLoop (kernel_size stride : Nat) (glu : Bool) (growth max_hidden : Nat) :
    Nat → Nat → Nat → Nat → Nat → List (List Layer) × List (List Layer) × Nat
  | 0, _index, chin, _chout, _hidden => ([], [], chin)
  | n + 1, index, chin, chout, hidden =>
      let ch_scale : Nat := if glu then 2 else 1
      let encode : List Layer :=
        [Layer.conv1d chin hidden kernel_size stride, Layer.relu,
          Layer.conv1d hidden (hidden * ch_scale) 1 1, activationOf glu]
      let decode : List Layer :=
        [Layer.conv1d hidden (ch_scale * hidden) 1 1, activationOf glu,
          Layer.convTr1d hidden chout kernel_size stride] ++
          (if 0 < index then [Layer.relu] else [])
      let rest := encDecLoop kernel_size stride glu growth max_hidden n (index + 1)
        hidden hidden (min (growth * hidden) max_hidden)
      (encode :: rest.1, rest.2.1 ++ [decode], rest.2.2)

/-- `Demucs.__init__` (lines 101-164), restricted to the architecture shape.
The explicit resample validation (line 103) runs first and raises before any
submodule is allocated; then the two output heads are set up (lines 128-139,
where the Python divisions `40960 // kernel_out` and `n_bits // factor` raise
`ZeroDivisionError` for degenerate `kernel_out`, still before any
encoder/decoder/LSTM allocation); then the encoder/decoder loop and the
LSTM dimension (the final `chin`). -/
def demucsInit (cfg : Config) : Except String DemucsModel :=
  if ¬ (cfg.resample = 1 ∨ cfg.resample = 2 ∨ cfg.resample = 4) then
    Except.error "Resample should be 1, 2 or 4."
  else if cfg.kernel_out = 0 then
    Except.error "ZeroDivisionError"
  else if 40960 / cfg.kernel_out = 0 then
    Except.error "ZeroDivisionError"
  else
    let factor : Nat := 40960 / cfg.kernel_out
    let loop := encDecLoop cfg.kernel_size cfg.stride cfg.glu cfg.growth
      cfg.max_hidden cfg.depth 0 cfg.chin cfg.chout cfg.hidden
    Except.ok
      { encoder := loop.1
        decoder := loop.2.1
        lstm_dim := loop.2.2
        output_bit :=
          Layer.conv1d cfg.chout (cfg.n_bits / factor) cfg.kernel_out cfg.kernel_out
        output_bit1 :=
          Layer.conv1d cfg.chout cfg.kernel_out cfg.kernel_out cfg.kernel_out
        output_bit2 :=
          Layer.conv1d 1 (cfg.n_bits / factor) cfg.kernel_out cfg.kernel_out }

/-- The `hidden` sequence of the construction loop: `h_0 = hidden` and
`h_{j+1} = min (growth * h_j) max_hidden` (line 160). -/
def hSeq (growth max_hidden h0 : Nat) : Nat → Nat
  | 0 => h0
  | j + 1 => min (growth * hSeq growth max_hidden h0 j) max_hidden

/-- Output channels of the first convolution of a block (the stage's hidden
width for an encode block). -/
def firstConvOut : List Layer → Option Nat
  | Layer.conv1d _ cout _ _ :: _ => some cout
  | _ => none

/-- Input channels of the first convolution of a block (the stage's input
width for a decode block). -/
def firstConvIn : List Layer → Option Nat
  | Layer.conv1d cin _ _ _ :: _ => some cin
  | _ => none

/-- Whether a decode block applies a ReLU after its transposed convolution,
i.e. ends in a `relu` layer (the transposed convolution is last
otherwise). -/
def endsWithReLU (blk : List Layer) : Bool :=
  decide (blk.getLast? = some Layer.relu)

/-- Configuration exhibiting the C6 decoder-ReLU placement with two decoder
stages. -/
def cfgC6 : Config :=
  { chin := 1, chout := 1, hidden := 4, depth := 2, kernel_size := 8,
    stride := 2, resample := 1, growth := 2, max_hidden := 10000, glu := true,
    n_bits := 5120, kernel_out := 64 }

/-- The model built by `demucsInit cfgC6` (construction succeeds there). -/
def modelC6 : DemucsModel :=
  match demucsInit cfgC6 with
  | Except.ok m => m
  | Except.error _ =>
      { encoder := [], decoder := [], lstm_dim := 0, output_bit := Layer.relu,
        output_bit1 := Layer.relu, output_bit2 := Layer.relu }

/-- Valid-resample configuration with `kernel_out = 0`, on which construction
nevertheless fails (division by zero at line 130). -/
def cfgC7 : Config :=
  { chin := 2, chout := 2, hidden := 48, depth := 5, kernel_size := 8,
    stride := 2, resample := 2, growth := 2, max_hidden := 10000, glu := true,
    n_bits := 5120, kernel_out := 0 }

/-- A fully valid default-like configuration, used for witnesses. -/
def cfgDefault : Config :=
  { chin := 2, chout := 2, hidden := 64, depth := 5, kernel_size := 8,
    stride := 2, resample := 2, growth := 2, max_hidden := 10000, glu := true,
    n_bits := 5120, kernel_out := 64 }

/-- The model built by `demucsInit cfgDefault`. -/
def modelDefault : DemucsModel :=
  match demucsInit cfgDefault with
  | Except.ok m => m
  | Except.error _ =>
      { encoder := [], decoder := [], lstm_dim := 0, output_bit := Layer.relu,
        output_bit1 := Layer.relu, output_bit2 := Layer.relu }

/-- Configuration with `hidden > max_hidden`, where the stage-0 width is the
unclamped `hidden`. -/
def cfgC9 : Config :=
  { chin := 1, chout := 1, hidden := 2, depth := 1, kernel_size := 8,
    stride := 2, resample := 1, growth := 2, max_hidden := 1, glu := true,
    n_bits := 5120, kernel_out := 64 }

/-- A real-valued tensor of shape batch × channels × time, with entries in
`ℚ` (exact arithmetic standing in for the framework's reals). -/
def Tensor3 : Type := List (List (List ℚ))

/-- `x.shape[-1]`: the time length (of the first channel of the first batch
element; all agree on a well-formed tensor). -/
def lastLen (x : Tensor3) : Nat := ((x.headD []).headD []).length

/-- `F.pad(x, (0, n))` (line 200): append `n` zero samples on the right of
the time axis. -/
def padTime (n : Nat) (x : Tensor3) : Tensor3 :=
  x.map (List.map (fun row => row ++ List.replicate n 0))

/-- `x[..., :n]`: truncate the time axis to the first `n` samples. -/
def truncTime (n : Nat) (x : Tensor3) : Tensor3 :=
  x.map (List.map (List.take n))

/-- Elementwise addition of two tensors of identical shape. -/
def addT (a b : Tensor3) : Tensor3 :=
  List.zipWith (List.zipWith (List.zipWith (· + ·))) a b

/-- `torch.flatten(torch.transpose(x, 1, 2), start_dim=1)` (lines 228, 235,
238): per batch element, transpose channels and time and concatenate the
rows — the time-major flattening. -/
def flattenHead (x : Tensor3) : List (List ℚ) :=
  x.map (fun chans => chans.transpose.flatten)

/-- `mix.mean(dim=1)` per batch element (line 193): the channel-wise mean
("mono") signal. -/
def monoOf (chans : List (List ℚ)) : List ℚ :=
  match chans with
  | [] => []
  | c :: cs =>
      (cs.foldl (fun acc r => List.zipWith (· + ·) acc r) c).map
        (fun v => v / ((chans.length : ℚ)))

/-- A 2-D (batch × features) or 3-D (batch × channels × time) tensor.  The
flattening at line 229 rebinds `x` to a 2-D tensor, and what may legally be
applied to a 2-D tensor differs from the 3-D case, so the output-head part
of `forward` must track dimensionality. -/
inductive TensorND where
  | d2 : List (List ℚ) → TensorND
  | d3 : Tensor3 → TensorND

/-- An `nn.Conv1d` head as a function on dimension-tagged tensors.  On a 3-D
batched input its action is the total function `act3`.  A 2-D input is
accepted only by framework versions with unbatched support, and only when
its first axis equals the module's `in_channels`; the result is then again
2-D (`act2`, with `none` for the versions and shapes that raise).  No
`Conv1d` maps a 2-D input to a 3-D output. -/
structure ConvModule where
  act3 : Tensor3 → Tensor3
  act2 : List (List ℚ) → Option (List (List ℚ))

/-- Application of a `Conv1d` head to a 3-D or 2-D tensor (lines 227, 234,
237). -/
def ConvModule.apply (c : ConvModule) : TensorND → Option TensorND
  | TensorND.d3 x => some (TensorND.d3 (c.act3 x))
  | TensorND.d2 x => (c.act2 x).map TensorND.d2

/-- `torch.transpose(y, 1, 2)` (lines 228, 235, 238): swap axes 1 and 2 of a
3-D tensor; on a 2-D tensor dimension 2 is out of range and the call raises
in every framework version. -/
def transpose12 : TensorND → Option TensorND
  | TensorND.d3 x => some (TensorND.d3 (x.map List.transpose))
  | TensorND.d2 _ => none

/-- `torch.flatten(y, start_dim=1)`: collapse all axes after the batch axis
into one; the result is 2-D. -/
def flatten1 : TensorND → List (List ℚ)
  | TensorND.d3 x => x.map List.flatten
  | TensorND.d2 x => x

/-- The learned submodules of `Demucs.forward`: the encoder and decoder
stages and the LSTM (with its two permutes) as functions on the 3-D tensors
they are applied to, the two output heads as `Conv1d` modules on
dimension-tagged tensors, the resampling pair (defined in the `.resample`
module outside `src/`), and `torch.std` of a mono signal (a framework kernel
involving a square root, hence abstract). -/
structure Modules where
  encoder : List (Tensor3 → Tensor3)
  decoder : List (Tensor3 → Tensor3)
  lstm : Tensor3 → Tensor3
  output_bit : ConvModule
  output_bit1 : ConvModule
  output_bit2 : ConvModule
  upsample2 : Tensor3 → Tensor3
  downsample2 : Tensor3 → Tensor3
  stdFn : List ℚ → ℚ

/-- Decoder loop of `forward` (lines 213-216): pop the most recently pushed
skip, truncate it to `x.shape[-1]`, add it to `x`, and apply the decode
stage; popping from an exhausted stack is an error. -/
def decodeFold : List (Tensor3 → Tensor3) → List Tensor3 → Tensor3 →
    Option Tensor3
  | [], _, x => some x
  | dec :: rest, skip :: srest, x =>
      decodeFold rest srest (dec (addT x (truncTime (lastLen x) skip)))
  | _ :: _, [], _ => none

/-- `Demucs.forward` from the normalization up to and including the
truncation `x = x[..., :length]` (lines 188-223), over a 3-D input: compute
the per-batch `std` factors (1 when `normalize` is false), divide by
`floor + std` when normalizing, pad to `valid_length`, upsample per the
resample branches, run the encoder pushing each stage output on the skip
stack, the LSTM, the decoder loop with skip additions, downsample, and
truncate to the original length.  Returns the truncated tensor and the `std`
factors. -/
def forwardBody (m : Modules) (depth : Nat) (k s r : Int) (normalize : Bool)
    (floorc : ℚ) (mix : Tensor3) : Option (Tensor3 × List ℚ) :=
  let stds : List ℚ :=
    if normalize then mix.map (fun chans => m.stdFn (monoOf chans))
    else mix.map (fun _ => 1)
  let mix1 : Tensor3 :=
    if normalize then
      List.zipWith (fun sb chans =>
        chans.map (List.map (fun v => v / (floorc + sb)))) stds mix
    else mix
  let length : Nat := lastLen mix1
  let x0 : Tensor3 :=
    padTime (valid_length depth k s r (length : Int) - (length : Int)).toNat mix1
  let x1 : Tensor3 :=
    if r = 2 then m.upsample2 x0
    else if r = 4 then m.upsample2 (m.upsample2 x0)
    else x0
  let ex : Tensor3 × List Tensor3 :=
    m.encoder.foldl (fun p enc => let y := enc p.1; (y, y :: p.2)) (x1, [])
  let xl : Tensor3 := m.lstm ex.1
  match decodeFold m.decoder ex.2 xl with
  | none => none
  | some xd =>
      let xr : Tensor3 :=
        if r = 2 then m.downsample2 xd
        else if r = 4 then m.downsample2 (m.downsample2 xd)
        else xd
      some (truncTime length xr, stds)

/-- `Demucs.forward` (lines 188-241): the body above, then line 227 applies
`output_bit` to the (3-D) truncated tensor, line 228 transposes and
flattens, and line 229 rebinds `x` to the resulting 2-D tensor.  Line 234
then applies the `Conv1d` head `output_bit1` to that 2-D `x`, line 235
transposes and flattens its at-most-2-D result, lines 236-238 unsqueeze to
one channel and apply `output_bit2` with another transpose-flatten, and line
241 returns `std * x` (the line-229 value).  Since `transpose(·, 1, 2)`
needs a third dimension, the pass can never get past line 235: `forwardVal`
is `none` on every input (the subsequent steps are transcribed but
unreachable). -/
def forwardVal (m : Modules) (depth : Nat) (k s r : Int) (normalize : Bool)
    (floorc : ℚ) (mix : Tensor3) : Option (List (List ℚ)) :=
  (forwardBody m depth k s r normalize floorc mix).bind fun p =>
    ((m.output_bit.apply (TensorND.d3 p.1)).bind transpose12).bind fun y =>
      let flat : List (List ℚ) := flatten1 y
      ((m.output_bit1.apply (TensorND.d2 flat)).bind transpose12).bind fun y1 =>
        let xv2 : TensorND := TensorND.d3 ((flatten1 y1).map (fun row => [row]))
        ((m.output_bit2.apply xv2).bind transpose12).bind fun y2 =>
          let _flat2 : List (List ℚ) := flatten1 y2
          some (List.zipWith (fun sb row => row.map (fun v => sb * v)) p.2 flat)

/-- The value named by `return std * x` at line 241 under the bindings of
lines 188-229: `std` times the time-major flattening of the first output
head applied to the truncated decoder output.  This is the pass the spec
describes ("compute both heads, return only the first head's result");
`forward` itself raises in the v2 block before reaching the return. -/
def returnExprVal (m : Modules) (depth : Nat) (k s r : Int) (normalize : Bool)
    (floorc : ℚ) (mix : Tensor3) : Option (List (List ℚ)) :=
  (forwardBody m depth k s r normalize floorc mix).map
    (fun p => List.zipWith (fun sb row => row.map (fun v => sb * v)) p.2
      (flattenHead (m.output_bit.act3 p.1)))

/-! ## Theorems -/

theorem cdiv_le_cdiv {a b : Int} (c : Int) (hc : 0 < c) (h : a ≤ b) :
    cdiv a c ≤ cdiv b c := by
  unfold cdiv
  have := Int.ediv_le_ediv hc (show -b ≤ -a by omega)
  omega

theorem le_cdiv_mul {a c : Int} (hc : 0 < c) : a ≤ cdiv a c * c := by
  unfold cdiv
  have h1 : -a / c * c ≤ -a := Int.ediv_mul_le (-a) (by omega)
  rw [neg_mul]
  omega

theorem cdiv_mul_cancel {a c : Int} (hc : c ≠ 0) : cdiv (a * c) c = a := by
  unfold cdiv
  rw [← neg_mul, Int.mul_ediv_cancel _ hc, neg_neg]

theorem cdiv_mul_of_dvd {a c : Int} (hc : c ≠ 0) (h : c ∣ a) :
    cdiv a c * c = a := by
  obtain ⟨e, he⟩ := h
  subst he
  rw [mul_comm c e, cdiv_mul_cancel hc]

theorem foldl_const_eq_iterate {α : Type} (f : α → α) (x : α) (n : Nat) :
    (List.range n).foldl (fun a _ => f a) x = f^[n] x := by
  induction n with
  | zero => rfl
  | succ m ih =>
      rw [List.range_succ, List.foldl_append, ih, List.foldl_cons, List.foldl_nil,
        Function.iterate_succ_apply']

theorem valid_length_eq_recipe (depth : Nat) (k s r L : Int) :
    valid_length depth k s r L = validLengthRecipe depth k s r L := by
  simp only [valid_length, validLengthRecipe]
  rw [foldl_const_eq_iterate (fun len => max (cdiv (len - k) s + 1) 1),
    foldl_const_eq_iterate (fun len => (len - 1) * s + k)]
  rfl

theorem decStepC_mono {k s : Int} (hs : 0 ≤ s) : Monotone (decStepC k s) := by
  intro a b h
  unfold decStepC
  have := mul_le_mul_of_nonneg_right (show a - 1 ≤ b - 1 by omega) hs
  omega

theorem encStepC_mono {k s : Int} (hs : 0 < s) : Monotone (encStepC k s) := by
  intro a b h
  unfold encStepC
  have := cdiv_le_cdiv s hs (show a - k ≤ b - k by omega)
  omega

theorem one_le_encStepC (k s x : Int) : 1 ≤ encStepC k s x := le_max_right _ _

theorem le_dec_enc {k s : Int} (hs : 0 < s) (x : Int) :
    x ≤ decStepC k s (encStepC k s x) := by
  unfold decStepC encStepC
  have h1 : x - k ≤ cdiv (x - k) s * s := le_cdiv_mul hs
  have h2 : cdiv (x - k) s * s ≤ (max (cdiv (x - k) s + 1) 1 - 1) * s :=
    mul_le_mul_of_nonneg_right (by omega) (by omega)
  omega

theorem le_iter_dec_enc {k s : Int} (hs : 0 < s) (n : Nat) (x : Int) :
    x ≤ (decStepC k s)^[n] ((encStepC k s)^[n] x) := by
  induction n generalizing x with
  | zero => simp
  | succ m ih =>
      rw [Function.iterate_succ_apply (encStepC k s),
        Function.iterate_succ_apply' (decStepC k s)]
      exact le_trans (le_trans (le_dec_enc hs x)
        (decStepC_mono (by omega) (ih (encStepC k s x))))
        (le_refl _)

theorem enc_dec_id {k s : Int} (hs : 0 < s) {z : Int} (hz : 1 ≤ z) :
    encStepC k s (decStepC k s z) = z := by
  unfold encStepC decStepC
  have h1 : (z - 1) * s + k - k = (z - 1) * s := by ring
  rw [h1, cdiv_mul_cancel (show s ≠ 0 by omega)]
  omega

theorem one_le_decStepC {k s : Int} (hk : 1 ≤ k) (hs : 0 ≤ s) {z : Int}
    (hz : 1 ≤ z) : 1 ≤ decStepC k s z := by
  unfold decStepC
  have := mul_nonneg (show (0:Int) ≤ z - 1 by omega) hs
  omega

theorem iter_enc_dec_id {k s : Int} (hk : 1 ≤ k) (hs : 0 < s) (n : Nat)
    {z : Int} (hz : 1 ≤ z) :
    (encStepC k s)^[n] ((decStepC k s)^[n] z) = z := by
  induction n generalizing z with
  | zero => simp
  | succ m ih =>
      rw [Function.iterate_succ_apply (decStepC k s),
        Function.iterate_succ_apply' (encStepC k s),
        ih (one_le_decStepC hk (by omega) hz), enc_dec_id hs hz]

theorem one_le_iter_enc (k s : Int) (n : Nat) (x : Int) :
    1 ≤ (encStepC k s)^[n + 1] x := by
  rw [Function.iterate_succ_apply']
  exact one_le_encStepC k s _

/-- C2: for every input length `L ≥ 0` and every valid configuration
(`resample ∈ {1,2,4}`, any depth, `kernel_size ≥ 1`, `stride ≥ 1`),
`valid_length L ≥ L`. -/
theorem C2_valid_length_ge (depth : Nat) (k s r L : Int)
    (hr : r = 1 ∨ r = 2 ∨ r = 4) (hk : 1 ≤ k) (hs : 1 ≤ s) (hL : 0 ≤ L) :
    L ≤ valid_length depth k s r L := by
  have hr1 : 0 < r := by rcases hr with h | h | h <;> omega
  rw [valid_length_eq_recipe]
  unfold validLengthRecipe
  calc L = cdiv (L * r) r := (cdiv_mul_cancel (by omega)).symm
    _ ≤ _ := cdiv_le_cdiv r hr1 (le_iter_dec_enc (by omega) depth (L * r))

/-- Witness for C2 at a concrete configuration and input. -/
theorem C2_witness :
    (((2:Int) = 1 ∨ (2:Int) = 2 ∨ (2:Int) = 4) ∧ (1:Int) ≤ 8 ∧ (1:Int) ≤ 2 ∧
      (0:Int) ≤ 1000) ∧ (1000 : Int) ≤ valid_length 5 8 2 2 1000 :=
  ⟨⟨by decide, by decide, by decide, by decide⟩,
    C2_valid_length_ge 5 8 2 2 1000 (by decide) (by decide) (by decide) (by decide)⟩

/-- C5 counterexample: the spec's floor-based per-stage encoder map does not
compute `valid_length`.  With `depth = 1`, `kernel_size = 8`, `stride = 2`,
`resample = 1` and `L = 11`, the code (which uses a ceiling) returns 12 while
the spec's floor recipe returns 10. -/
theorem C5_counterexample :
    valid_length 1 8 2 1 11 ≠ validLengthFloorSpec 1 8 2 1 11 := by decide

/-- C5 (amended): `valid_length` is computed by scaling by the resample
factor, applying `depth` times the per-stage map
`L' = ceil((L' - kernel_size)/stride) + 1` floored below at 1 (a ceiling, not
the floor the spec claims), then `depth` times the expansion
`L' = (L'-1)*stride + kernel_size`, then dividing by the resample factor
rounding up. -/
theorem C5_valid_length_recipe (depth : Nat) (k s r L : Int) :
    valid_length depth k s r L = validLengthRecipe depth k s r L :=
  valid_length_eq_recipe depth k s r L

/-- C8 counterexample: `valid_length` is not idempotent.  With `depth = 1`,
`kernel_size = 1`, `stride = 2`, `resample = 2`, we get `valid_length 1 = 2`
but `valid_length 2 = 3`. -/
theorem C8_counterexample :
    valid_length 1 1 2 2 (valid_length 1 1 2 2 1) ≠ valid_length 1 1 2 2 1 := by
  decide

/-- C8 (amended): `valid_length` is idempotent whenever `resample = 1`, or
`resample` divides both `kernel_size` and `stride` (which covers the default
configuration `kernel_size = 8`, `stride = 2`, `resample ∈ {1,2}`); with other
resample/kernel/stride combinations idempotence can fail
(cf. the counterexample). -/
theorem C8_valid_length_idem (depth : Nat) (k s r L : Int) (hk : 1 ≤ k)
    (hs : 1 ≤ s) (hr : 0 < r) (hcond : r = 1 ∨ (r ∣ k ∧ r ∣ s)) :
    valid_length depth k s r (valid_length depth k s r L) =
      valid_length depth k s r L := by
  simp only [valid_length_eq_recipe]
  unfold validLengthRecipe
  cases depth with
  | zero =>
      simp only [Function.iterate_zero, id_eq]
      rw [cdiv_mul_cancel (show r ≠ 0 by omega)]
  | succ n =>
      set z0 : Int := (encStepC k s)^[n + 1] (L * r) with hz0def
      have hz0 : 1 ≤ z0 := one_le_iter_enc k s n (L * r)
      set R : Int := (decStepC k s)^[n + 1] z0 with hRdef
      have hdvd : r ∣ R := by
        rcases hcond with h1 | ⟨hdk, hds⟩
        · subst h1; exact one_dvd _
        · rw [hRdef, Function.iterate_succ_apply' (decStepC k s)]
          unfold decStepC
          exact dvd_add (Dvd.dvd.mul_left hds _) hdk
      have hVr : cdiv R r * r = R := cdiv_mul_of_dvd (show r ≠ 0 by omega) hdvd
      rw [hVr, iter_enc_dec_id hk (by omega) (n + 1) hz0]

/-- Witness for C8 at a concrete configuration and input. -/
theorem C8_witness :
    ((1:Int) ≤ 8 ∧ (1:Int) ≤ 2 ∧ (0:Int) < 2 ∧
      ((2:Int) = 1 ∨ ((2:Int) ∣ 8 ∧ (2:Int) ∣ 2))) ∧
    valid_length 5 8 2 2 (valid_length 5 8 2 2 1000) = valid_length 5 8 2 2 1000 :=
  ⟨⟨by decide, by decide, by decide, by decide⟩,
    C8_valid_length_idem 5 8 2 2 1000 (by decide) (by decide) (by decide)
      (by decide)⟩

/-- C10: `valid_length` is monotone nondecreasing in the input length, for
every valid configuration. -/
theorem C10_valid_length_mono (depth : Nat) (k s r L1 L2 : Int)
    (hr : r = 1 ∨ r = 2 ∨ r = 4) (hk : 1 ≤ k) (hs : 1 ≤ s) (hL : L1 ≤ L2) :
    valid_length depth k s r L1 ≤ valid_length depth k s r L2 := by
  have hr1 : 0 < r := by rcases hr with h | h | h <;> omega
  rw [valid_length_eq_recipe, valid_length_eq_recipe]
  unfold validLengthRecipe
  apply cdiv_le_cdiv r hr1
  apply Monotone.iterate (decStepC_mono (by omega)) depth
  apply Monotone.iterate (encStepC_mono (by omega)) depth
  exact mul_le_mul_of_nonneg_right hL (by omega)

/-- Witness for C10 at a concrete configuration and input pair. -/
theorem C10_witness :
    (((2:Int) = 1 ∨ (2:Int) = 2 ∨ (2:Int) = 4) ∧ (1:Int) ≤ 8 ∧ (1:Int) ≤ 2 ∧
      (300:Int) ≤ 1000) ∧
    valid_length 5 8 2 2 300 ≤ valid_length 5 8 2 2 1000 :=
  ⟨⟨by decide, by decide, by decide, by decide⟩,
    C10_valid_length_mono 5 8 2 2 300 1000 (by decide) (by decide) (by decide)
      (by decide)⟩

theorem convLen_pos {k s L v : Nat} (h : convLen k s L = some v) : 1 ≤ v := by
  unfold convLen at h
  split at h
  · exact Option.noConfusion h
  · injection h with h'
    rw [← h']
    exact Nat.le_add_left 1 _

theorem convLen_one {L : Nat} (hL : 1 ≤ L) : convLen 1 1 L = some L := by
  unfold convLen
  rw [if_neg (by omega), Nat.div_one]
  congr 1
  omega

theorem decSafe_append_singleton (k s : Nat) (xs : List Nat) (a M : Nat) :
    decSafe k s (xs ++ [a]) M ↔ decSafe k s xs M ∧ dlen k s xs M ≤ a := by
  induction xs generalizing M with
  | nil => simp [decSafe, dlen]
  | cons x xs ih => simp [decSafe, dlen, ih, and_assoc]

theorem dlen_append_singleton (k s : Nat) (xs : List Nat) (a M : Nat) :
    dlen k s (xs ++ [a]) M = (dlen k s xs M - 1) * s + k := by
  induction xs generalizing M with
  | nil => rfl
  | cons x xs ih => simp [dlen, ih]

theorem encPhase_decSafe (k s : Nat) (hk : 1 ≤ k) (hs : 1 ≤ s) :
    ∀ (n L0 lf : Nat) (sk : List Nat), encPhase k s n L0 = some (lf, sk) →
      ∀ M, M ≤ lf → decSafe k s sk.reverse M ∧ dlen k s sk.reverse M ≤ L0 := by
  intro n
  induction n with
  | zero =>
      intro L0 lf sk h M hM
      simp only [encPhase, Option.some.injEq, Prod.mk.injEq] at h
      obtain ⟨h1, h2⟩ := h
      subst h1; subst h2
      exact ⟨trivial, hM⟩
  | succ m ih =>
      intro L0 lf sk h M hM
      unfold encPhase at h
      split at h
      · exact Option.noConfusion h
      rename_i l1 hc1
      split at h
      · exact Option.noConfusion h
      rename_i l2 hc2
      split at h
      · exact Option.noConfusion h
      rename_i lf' sk' hrec
      simp only [Option.some.injEq, Prod.mk.injEq] at h
      obtain ⟨h1, h2⟩ := h
      subst h1; subst h2
      have hkL0 : ¬ L0 < k := by
        intro hlt
        rw [convLen, if_pos hlt] at hc1
        exact Option.noConfusion hc1
      have hl1 : l1 = (L0 - k) / s + 1 := by
        rw [convLen, if_neg hkL0] at hc1
        exact (Option.some.inj hc1).symm
      have hl1pos : 1 ≤ l1 := convLen_pos hc1
      have hl2 : l2 = l1 := by
        rw [convLen_one hl1pos] at hc2
        exact (Option.some.inj hc2).symm
      obtain ⟨ihSafe, ihLen⟩ := ih l2 _ sk' hrec M hM
      rw [List.reverse_cons]
      constructor
      · rw [decSafe_append_singleton]
        exact ⟨ihSafe, ihLen⟩
      · rw [dlen_append_singleton]
        have hd0 : dlen k s sk'.reverse M ≤ (L0 - k) / s + 1 := by
          rw [← hl1, ← hl2]; exact ihLen
        have hd1 : dlen k s sk'.reverse M - 1 ≤ (L0 - k) / s :=
          Nat.sub_le_sub_right hd0 1
        have hd2 : (dlen k s sk'.reverse M - 1) * s ≤ (L0 - k) / s * s :=
          Nat.mul_le_mul_right s hd1
        have hd3 : (L0 - k) / s * s ≤ L0 - k := Nat.div_mul_le_self _ _
        calc (dlen k s sk'.reverse M - 1) * s + k
            ≤ (L0 - k) + k := Nat.add_le_add_right (le_trans hd2 hd3) k
          _ = L0 := Nat.sub_add_cancel (by omega)

theorem encPhase_length (k s : Nat) :
    ∀ (n L0 lf : Nat) (sk : List Nat), encPhase k s n L0 = some (lf, sk) →
      sk.length = n := by
  intro n
  induction n with
  | zero =>
      intro L0 lf sk h
      simp only [encPhase, Option.some.injEq, Prod.mk.injEq] at h
      rw [← h.2]
      rfl
  | succ m ih =>
      intro L0 lf sk h
      unfold encPhase at h
      split at h
      · exact Option.noConfusion h
      rename_i l1 hc1
      split at h
      · exact Option.noConfusion h
      rename_i l2 hc2
      split at h
      · exact Option.noConfusion h
      rename_i lf' sk' hrec
      simp only [Option.some.injEq, Prod.mk.injEq] at h
      rw [← h.2]
      simp [ih l2 lf' sk' hrec]

theorem encPhase_final_pos (k s : Nat) :
    ∀ (n L0 lf : Nat) (sk : List Nat), encPhase k s (n + 1) L0 = some (lf, sk) →
      1 ≤ lf := by
  intro n
  induction n with
  | zero =>
      intro L0 lf sk h
      unfold encPhase at h
      split at h
      · exact Option.noConfusion h
      rename_i l1 hc1
      split at h
      · exact Option.noConfusion h
      rename_i l2 hc2
      split at h
      · exact Option.noConfusion h
      rename_i lf' sk' hrec
      simp only [encPhase, Option.some.injEq, Prod.mk.injEq] at hrec
      simp only [Option.some.injEq, Prod.mk.injEq] at h
      obtain ⟨hr1, -⟩ := hrec
      obtain ⟨hh1, -⟩ := h
      have := convLen_pos hc2
      omega
  | succ m ih =>
      intro L0 lf sk h
      unfold encPhase at h
      split at h
      · exact Option.noConfusion h
      rename_i l1 hc1
      split at h
      · exact Option.noConfusion h
      rename_i l2 hc2
      split at h
      · exact Option.noConfusion h
      rename_i lf' sk' hrec
      simp only [Option.some.injEq, Prod.mk.injEq] at h
      have := ih l2 lf' sk' hrec
      omega

theorem decStepLen_eq (k s : Nat) {skip M : Nat} (h1 : 1 ≤ M) (hle : M ≤ skip) :
    decStepLen k s skip M = some ((M - 1) * s + k) := by
  have hM0 : ¬ M = 0 := by omega
  simp [decStepLen, addSkipLen, convLen, tconvLen, min_eq_right hle,
    Nat.sub_add_cancel h1, hM0]

theorem decPhase_eq_dlen (k s : Nat) (hk : 1 ≤ k) :
    ∀ (sks : List Nat) (M : Nat), 1 ≤ M → decSafe k s sks M →
      decPhase k s sks M = some (dlen k s sks M) := by
  intro sks
  induction sks with
  | nil => intro M h1 h2; rfl
  | cons skip rest ih =>
      intro M h1 h2
      obtain ⟨hle, hrest⟩ := h2
      unfold decPhase
      rw [decStepLen_eq k s h1 hle]
      exact ih ((M - 1) * s + k) (by omega) hrest

/-- C3: in every (non-erroring) forward pass, the skip stack collected by the
encoder has one entry per stage and is consumed last-in-first-out (entry `j`
of the reversed, pop-order stack is entry `depth-1-j` of the push order, so
encoder stage `i` feeds the mirrored decoder stage `depth-1-i`); every popped
skip's time length is at least the current feature-map length (`decSafe`);
and the decoder then runs without error with lengths given purely by its
transposed convolutions (`dlen`): each skip addition truncates only the skip
and never changes the feature map's length. -/
theorem C3_skips_lifo (k s depth L0 lf : Nat) (sk : List Nat)
    (hk : 1 ≤ k) (hs : 1 ≤ s) (henc : encPhase k s depth L0 = some (lf, sk)) :
    sk.length = depth ∧
    (∀ j, j < depth → sk.reverse[j]? = sk[depth - 1 - j]?) ∧
    decSafe k s sk.reverse lf ∧
    decPhase k s sk.reverse lf = some (dlen k s sk.reverse lf) := by
  have hlen : sk.length = depth := encPhase_length k s depth L0 lf sk henc
  have hsafe : decSafe k s sk.reverse lf ∧ dlen k s sk.reverse lf ≤ L0 :=
    encPhase_decSafe k s hk hs depth L0 lf sk henc lf (le_refl lf)
  refine ⟨hlen, ?_, hsafe.1, ?_⟩
  · intro j hj
    rw [List.getElem?_reverse (by omega), hlen]
  · cases depth with
    | zero =>
        have hnil : sk = [] := List.length_eq_zero.mp hlen
        subst hnil
        rfl
    | succ m =>
        exact decPhase_eq_dlen k s hk sk.reverse lf
          (encPhase_final_pos k s m L0 lf sk henc) hsafe.1

/-- Witness for C3 at the default geometry (`kernel_size = 8`, `stride = 2`,
`depth = 5`) on the padded length 1018 = `valid_length 1000`. -/
theorem C3_witness :
    ((1:Nat) ≤ 8 ∧ (1:Nat) ≤ 2 ∧
      encPhase 8 2 5 1018 = some (26, [506, 250, 122, 58, 26])) ∧
    (([(506:Nat), 250, 122, 58, 26].length = 5) ∧
      (∀ j, j < 5 → [(506:Nat), 250, 122, 58, 26].reverse[j]? =
        [(506:Nat), 250, 122, 58, 26][5 - 1 - j]?) ∧
      decSafe 8 2 [(506:Nat), 250, 122, 58, 26].reverse 26 ∧
      decPhase 8 2 [(506:Nat), 250, 122, 58, 26].reverse 26 =
        some (dlen 8 2 [(506:Nat), 250, 122, 58, 26].reverse 26)) :=
  ⟨⟨by decide, by decide, by decide⟩,
    C3_skips_lifo 8 2 5 1018 26 [506, 250, 122, 58, 26] (by decide) (by decide)
      (by decide)⟩

/-- C1 counterexample: with the default configuration (`depth = 5`,
`kernel_size = 8`, `stride = 2`, `resample = 1`, `n_bits = 5120`,
`kernel_out = 64`) and an accepted input of time length 1000, the flattened
first-head output — the value `return std * x` (line 241) names, and the
only candidate for `forward`'s result — has 120 entries per batch element,
not `n_bits = 5120`.  (Independently, `forward` as written raises in the v2
block before ever returning.)  So `forward` does not return a
batch × `n_bits` tensor at this input. -/
theorem C1_counterexample :
    forwardBits 5 8 2 1 5120 64 1000 = some 120 ∧ (120 : Nat) ≠ 5120 :=
  ⟨by decide, by decide⟩

/-- C1 (amended): the first output head produces
`n_bits / (40960/kernel_out)` channels, and its time-major flattening — the
value the `return std * x` statement names per batch element (the pass
itself raises in the v2 block before reaching it) — has exactly `n_bits`
entries when the input time length `L` satisfies
`L / kernel_out = 40960 / kernel_out` (the designed ≈40960-sample inputs),
`1 ≤ kernel_out ≤ 40960`, `(40960/kernel_out) ∣ n_bits`, and the pipeline
reaches the final truncation with length `L` — not for inputs of arbitrary
time length. -/
theorem C1_forward_bits (depth k s r n_bits kernel_out L : Nat)
    (hko : 1 ≤ kernel_out) (hko2 : kernel_out ≤ 40960)
    (hdvd : 40960 / kernel_out ∣ n_bits)
    (hL : kernel_out ≤ L) (hLk : L / kernel_out = 40960 / kernel_out)
    (htr : forwardTruncLen depth k s r L = some L) :
    forwardBits depth k s r n_bits kernel_out L = some n_bits := by
  unfold forwardBits
  rw [htr]
  show headBits n_bits kernel_out L = some n_bits
  have hf : 0 < 40960 / kernel_out := Nat.div_pos hko2 hko
  unfold headBits
  rw [if_neg (by omega), if_neg (Nat.pos_iff_ne_zero.mp hf)]
  have hconv : convLen kernel_out kernel_out L = some (L / kernel_out) := by
    unfold convLen
    rw [if_neg (by omega)]
    congr 1
    have h2 := Nat.add_div_right (L - kernel_out) hko
    rw [Nat.sub_add_cancel hL] at h2
    exact h2.symm
  rw [hconv]
  show some (n_bits / (40960 / kernel_out) * (L / kernel_out)) = some n_bits
  rw [hLk, Nat.div_mul_cancel hdvd]

/-- Witness for C1's amended statement: the designed input length 40960 with
the default configuration yields exactly `n_bits = 5120` entries. -/
theorem C1_witness :
    ((1:Nat) ≤ 64 ∧ (64:Nat) ≤ 40960 ∧ (40960:Nat) / 64 ∣ 5120 ∧
      (64:Nat) ≤ 40960 ∧ (40960:Nat) / 64 = 40960 / 64 ∧
      forwardTruncLen 5 8 2 1 40960 = some 40960) ∧
    forwardBits 5 8 2 1 5120 64 40960 = some 5120 :=
  ⟨⟨by decide, by decide, by decide, by decide, by decide, by decide⟩,
    C1_forward_bits 5 8 2 1 5120 64 40960 (by decide) (by decide) (by decide)
      (by decide) (by decide) (by decide)⟩

theorem encDecLoop_enc_length (k s : Nat) (g : Bool) (gr mh : Nat) :
    ∀ (n index chin chout hidden : Nat),
      (encDecLoop k s g gr mh n index chin chout hidden).1.length = n := by
  intro n
  induction n with
  | zero => intro index chin chout hidden; rfl
  | succ m ih =>
      intro index chin chout hidden
      simp [encDecLoop, ih]

theorem encDecLoop_dec_length (k s : Nat) (g : Bool) (gr mh : Nat) :
    ∀ (n index chin chout hidden : Nat),
      (encDecLoop k s g gr mh n index chin chout hidden).2.1.length = n := by
  intro n
  induction n with
  | zero => intro index chin chout hidden; rfl
  | succ m ih =>
      intro index chin chout hidden
      simp [encDecLoop, ih]

theorem hSeq_shift (gr mh h0 : Nat) :
    ∀ j, hSeq gr mh h0 (j + 1) = hSeq gr mh (min (gr * h0) mh) j := by
  intro j
  induction j with
  | zero => rfl
  | succ i ih =>
      show min (gr * hSeq gr mh h0 (i + 1)) mh =
        min (gr * hSeq gr mh (min (gr * h0) mh) i) mh
      rw [ih]

theorem encDecLoop_enc_get (k s : Nat) (g : Bool) (gr mh : Nat) :
    ∀ (n index chin chout hidden j : Nat), j < n →
      (encDecLoop k s g gr mh n index chin chout hidden).1[j]? =
        some [Layer.conv1d (if j = 0 then chin else hSeq gr mh hidden (j - 1))
            (hSeq gr mh hidden j) k s,
          Layer.relu,
          Layer.conv1d (hSeq gr mh hidden j)
            (hSeq gr mh hidden j * (if g then 2 else 1)) 1 1,
          activationOf g] := by
  intro n
  induction n with
  | zero => intro index chin chout hidden j hj; exact absurd hj (Nat.not_lt_zero j)
  | succ m ih =>
      intro index chin chout hidden j hj
      cases j with
      | zero => simp [encDecLoop, hSeq]
      | succ i =>
          have hrest := ih (index + 1) hidden hidden (min (gr * hidden) mh) i
            (by omega)
          simp only [encDecLoop]
          rw [List.getElem?_cons_succ, hrest, ← hSeq_shift]
          cases i with
          | zero => simp [hSeq]
          | succ i2 =>
              rw [← hSeq_shift]
              simp

theorem encDecLoop_dec_get (k s : Nat) (g : Bool) (gr mh : Nat) :
    ∀ (n index chin chout hidden j : Nat), j < n →
      (encDecLoop k s g gr mh n index chin chout hidden).2.1[n - 1 - j]? =
        some ([Layer.conv1d (hSeq gr mh hidden j)
            ((if g then 2 else 1) * hSeq gr mh hidden j) 1 1,
          activationOf g,
          Layer.convTr1d (hSeq gr mh hidden j)
            (if j = 0 then chout else hSeq gr mh hidden (j - 1)) k s] ++
          (if 0 < index + j then [Layer.relu] else [])) := by
  intro n
  induction n with
  | zero => intro index chin chout hidden j hj; exact absurd hj (Nat.not_lt_zero j)
  | succ m ih =>
      intro index chin chout hidden j hj
      have hlen := encDecLoop_dec_length k s g gr mh m (index + 1) hidden hidden
        (min (gr * hidden) mh)
      cases j with
      | zero =>
          simp only [encDecLoop]
          rw [show m + 1 - 1 - 0 = m from by omega, List.getElem?_append, hlen,
            if_neg (Nat.lt_irrefl m), Nat.sub_self]
          simp [hSeq]
      | succ i =>
          have hrest := ih (index + 1) hidden hidden (min (gr * hidden) mh) i
            (by omega)
          simp only [encDecLoop]
          rw [show m + 1 - 1 - (i + 1) = m - 1 - i from by omega,
            List.getElem?_append, hlen, if_pos (by omega : m - 1 - i < m),
            hrest, ← hSeq_shift]
          rw [if_pos (show 0 < index + 1 + i from by omega),
            if_pos (show 0 < index + (i + 1) from by omega)]
          cases i with
          | zero => simp [hSeq]
          | succ i2 =>
              rw [← hSeq_shift]
              simp

theorem hSeq_closed (gr mh h0 : Nat) (hmax : h0 ≤ mh) :
    ∀ i, hSeq gr mh h0 i = min (h0 * gr ^ i) mh := by
  intro i
  induction i with
  | zero => simp [hSeq, min_eq_left hmax]
  | succ j ih =>
      show min (gr * hSeq gr mh h0 j) mh = min (h0 * gr ^ (j + 1)) mh
      rw [ih]
      rcases le_or_lt (h0 * gr ^ j) mh with hle | hlt
      · rw [min_eq_left hle]
        congr 1
        ring
      · have hgr : 1 ≤ gr := by
          rcases Nat.eq_zero_or_pos gr with hg0 | hg1
          · subst hg0
            cases j with
            | zero => simp at hlt; omega
            | succ j2 => simp [pow_succ] at hlt
          · exact hg1
        rw [min_eq_right (Nat.le_of_lt hlt)]
        have h1 : mh ≤ gr * mh := Nat.le_mul_of_pos_left mh hgr
        have h2 : mh ≤ h0 * gr ^ (j + 1) := by
          calc mh ≤ h0 * gr ^ j := Nat.le_of_lt hlt
            _ ≤ h0 * gr ^ (j + 1) :=
              Nat.mul_le_mul_left h0 (Nat.pow_le_pow_right hgr (Nat.le_succ j))
        rw [min_eq_right h1, min_eq_right h2]

/-- C6 counterexample: with `depth = 2`, the first-applied ("innermost",
deepest) decoder stage — which the claim says applies no nonlinearity after
its transposed convolution — does end in a ReLU. -/
theorem C6_counterexample :
    cfgC6.depth = 2 ∧ endsWithReLU (modelC6.decoder[0]?.getD []) = true :=
  ⟨rfl, by decide⟩

/-- C6 (amended): every decoder stage except the OUTERMOST (last-applied,
list index `depth-1`) applies a ReLU after its transposed convolution, and
the outermost stage applies none: stage `j` (in application order) ends in a
ReLU iff `j + 1 < depth`.  The spec's "innermost / first-applied" labelling
is backwards. -/
theorem C6_decoder_relu (cfg : Config) (m : DemucsModel) (j : Nat)
    (hj : j < cfg.depth) (hok : demucsInit cfg = Except.ok m) :
    endsWithReLU (m.decoder[j]?.getD []) = decide (j + 1 < cfg.depth) := by
  unfold demucsInit at hok
  split at hok
  · exact Except.noConfusion hok
  split at hok
  · exact Except.noConfusion hok
  split at hok
  · exact Except.noConfusion hok
  injection hok with hm
  subst hm
  have hdg := encDecLoop_dec_get cfg.kernel_size cfg.stride cfg.glu cfg.growth
    cfg.max_hidden cfg.depth 0 cfg.chin cfg.chout cfg.hidden
    (cfg.depth - 1 - j) (by omega)
  rw [show cfg.depth - 1 - (cfg.depth - 1 - j) = j from by omega] at hdg
  show endsWithReLU
      (((encDecLoop cfg.kernel_size cfg.stride cfg.glu cfg.growth cfg.max_hidden
        cfg.depth 0 cfg.chin cfg.chout cfg.hidden).2.1)[j]?.getD []) =
    decide (j + 1 < cfg.depth)
  rw [hdg]
  by_cases hcase : j + 1 < cfg.depth
  · have hcond : 0 < 0 + (cfg.depth - 1 - j) := by omega
    rw [if_pos hcond]
    simp [endsWithReLU, List.getLast?_concat, hcase]
  · have hcond : ¬ 0 < 0 + (cfg.depth - 1 - j) := by omega
    rw [if_neg hcond]
    simp [endsWithReLU, List.getLast?, List.getLast, hcase]

/-- Witness for C6 at `cfgC6` (depth 2), stage `j = 0`. -/
theorem C6_witness :
    ((0:Nat) < cfgC6.depth ∧ demucsInit cfgC6 = Except.ok modelC6) ∧
    endsWithReLU (modelC6.decoder[0]?.getD []) = decide (0 + 1 < cfgC6.depth) :=
  ⟨⟨by decide, rfl⟩, C6_decoder_relu cfgC6 modelC6 0 (by decide) rfl⟩

/-- C7 counterexample: with the valid `resample = 2` but `kernel_out = 0`,
construction nevertheless fails (Python's `40960 // kernel_out` at line 130
raises `ZeroDivisionError`), so "construction fails iff resample is not in
{1,2,4}" is false. -/
theorem C7_counterexample :
    cfgC7.resample = 2 ∧ (demucsInit cfgC7).toOption = none :=
  ⟨rfl, by decide⟩

/-- C7 (amended): provided `1 ≤ kernel_out ≤ 40960` (so the output-head
integer divisions are defined), construction succeeds iff
`resample ∈ {1,2,4}`, and an invalid resample fails with the descriptive
message of line 104 — raised before any submodule (parameter tensor) is
allocated, as the error branch returns no model at all.  For degenerate
`kernel_out` construction can additionally fail with a division error even
when `resample` is valid. -/
theorem C7_init_validation (cfg : Config) (hko : 1 ≤ cfg.kernel_out)
    (hko2 : cfg.kernel_out ≤ 40960) :
    ((demucsInit cfg).toOption.isSome = true ↔
      (cfg.resample = 1 ∨ cfg.resample = 2 ∨ cfg.resample = 4)) ∧
    (¬ (cfg.resample = 1 ∨ cfg.resample = 2 ∨ cfg.resample = 4) →
      demucsInit cfg = Except.error "Resample should be 1, 2 or 4.") := by
  have hne : ¬ (40960 / cfg.kernel_out = 0) :=
    Nat.pos_iff_ne_zero.mp (Nat.div_pos hko2 hko)
  unfold demucsInit
  by_cases hr : cfg.resample = 1 ∨ cfg.resample = 2 ∨ cfg.resample = 4
  · rw [if_neg (not_not_intro hr), if_neg (by omega), if_neg hne]
    exact ⟨by simp [hr, Except.toOption], fun hcon => absurd hr hcon⟩
  · rw [if_pos hr]
    exact ⟨by simp [hr, Except.toOption], fun _ => rfl⟩

/-- Witness for C7 at the valid default configuration. -/
theorem C7_witness :
    ((1:Nat) ≤ cfgDefault.kernel_out ∧ cfgDefault.kernel_out ≤ 40960) ∧
    (((demucsInit cfgDefault).toOption.isSome = true ↔
      (cfgDefault.resample = 1 ∨ cfgDefault.resample = 2 ∨
        cfgDefault.resample = 4)) ∧
    (¬ (cfgDefault.resample = 1 ∨ cfgDefault.resample = 2 ∨
        cfgDefault.resample = 4) →
      demucsInit cfgDefault = Except.error "Resample should be 1, 2 or 4.")) :=
  ⟨⟨by decide, by decide⟩, C7_init_validation cfgDefault (by decide) (by decide)⟩

/-- C9 counterexample: with `hidden = 2 > max_hidden = 1`, encoder stage 0
uses the unclamped width 2, while the claimed formula
`min (hidden * growth^0) max_hidden` gives 1. -/
theorem C9_counterexample :
    ((demucsInit cfgC9).toOption.map
        fun m => Option.bind m.encoder[0]? firstConvOut) = some (some 2) ∧
    min (cfgC9.hidden * cfgC9.growth ^ 0) cfgC9.max_hidden = 1 ∧ (2:Nat) ≠ 1 :=
  ⟨by decide, by decide, by decide⟩

/-- C9 (amended): provided `hidden ≤ max_hidden`, the hidden width used at
encoder stage `i` (the output channels of its strided convolution) equals
`min (hidden * growth^i) max_hidden`, and the mirrored decoder stage (list
index `depth-1-i`) consumes exactly that many input channels.  (With
`hidden > max_hidden` stage 0 uses the unclamped `hidden`.) -/
theorem C9_channel_widths (cfg : Config) (m : DemucsModel) (i : Nat)
    (hi : i < cfg.depth) (hmax : cfg.hidden ≤ cfg.max_hidden)
    (hok : demucsInit cfg = Except.ok m) :
    Option.bind m.encoder[i]? firstConvOut =
      some (min (cfg.hidden * cfg.growth ^ i) cfg.max_hidden) ∧
    Option.bind m.decoder[cfg.depth - 1 - i]? firstConvIn =
      Option.bind m.encoder[i]? firstConvOut := by
  unfold demucsInit at hok
  split at hok
  · exact Except.noConfusion hok
  split at hok
  · exact Except.noConfusion hok
  split at hok
  · exact Except.noConfusion hok
  injection hok with hm
  subst hm
  have heg := encDecLoop_enc_get cfg.kernel_size cfg.stride cfg.glu cfg.growth
    cfg.max_hidden cfg.depth 0 cfg.chin cfg.chout cfg.hidden i hi
  have hdg := encDecLoop_dec_get cfg.kernel_size cfg.stride cfg.glu cfg.growth
    cfg.max_hidden cfg.depth 0 cfg.chin cfg.chout cfg.hidden i hi
  constructor
  · show Option.bind
        (((encDecLoop cfg.kernel_size cfg.stride cfg.glu cfg.growth
          cfg.max_hidden cfg.depth 0 cfg.chin cfg.chout cfg.hidden).1)[i]?)
        firstConvOut = _
    rw [heg]
    simp [firstConvOut, hSeq_closed cfg.growth cfg.max_hidden cfg.hidden hmax i]
  · show Option.bind
        (((encDecLoop cfg.kernel_size cfg.stride cfg.glu cfg.growth
          cfg.max_hidden cfg.depth 0 cfg.chin cfg.chout
          cfg.hidden).2.1)[cfg.depth - 1 - i]?) firstConvIn =
      Option.bind
        (((encDecLoop cfg.kernel_size cfg.stride cfg.glu cfg.growth
          cfg.max_hidden cfg.depth 0 cfg.chin cfg.chout cfg.hidden).1)[i]?)
        firstConvOut
    rw [hdg, heg]
    simp [firstConvIn, firstConvOut, List.cons_append]

/-- Witness for C9 at the default configuration, stage `i = 2` (width
`min (64 * 2^2) 10000 = 256`). -/
theorem C9_witness :
    ((2:Nat) < cfgDefault.depth ∧ cfgDefault.hidden ≤ cfgDefault.max_hidden ∧
      demucsInit cfgDefault = Except.ok modelDefault) ∧
    (Option.bind modelDefault.encoder[2]? firstConvOut =
        some (min (cfgDefault.hidden * cfgDefault.growth ^ 2)
          cfgDefault.max_hidden) ∧
      Option.bind modelDefault.decoder[cfgDefault.depth - 1 - 2]? firstConvIn =
        Option.bind modelDefault.encoder[2]? firstConvOut) :=
  ⟨⟨by decide, by decide, rfl⟩,
    C9_channel_widths cfgDefault modelDefault 2 (by decide) (by decide) rfl⟩

theorem ConvModule.apply_d3 (c : ConvModule) (x : Tensor3) :
    c.apply (TensorND.d3 x) = some (TensorND.d3 (c.act3 x)) := rfl

theorem transpose12_d3 (x : Tensor3) :
    transpose12 (TensorND.d3 x) = some (TensorND.d3 (x.map List.transpose)) :=
  rfl

theorem conv_d2_transpose_none (c : ConvModule) (rows : List (List ℚ)) :
    (c.apply (TensorND.d2 rows)).bind transpose12 = none := by
  cases h : c.act2 rows with
  | none => simp [ConvModule.apply, h]
  | some v => simp [ConvModule.apply, h, transpose12]

/-- C4: the code contradicts the claim.  Line 229 rebinds `x` to the 2-D
flattened first-head output and line 234 applies the `Conv1d` head
`output_bit1` to that 2-D tensor, so every call of `forward` raises inside
the v2 block (at line 234 on frameworks without unbatched support, at line
235's `transpose(x1, 1, 2)` otherwise): the model's `forwardVal` is `none`
for every input and configuration, and the `return std * x` of line 241 is
unreachable.  The claim (and the spec) describe the designed pass: the value
the return statement names — `std` times the flattened first-head output —
indeed does not depend on the v2 head's modules, as the second conjunct
shows by replacing them arbitrarily. -/
theorem C4_forward_never_returns (m : Modules) (g1 g2 : ConvModule)
    (depth : Nat) (k s r : Int) (normalize : Bool) (floorc : ℚ)
    (mix : Tensor3) :
    forwardVal m depth k s r normalize floorc mix = none ∧
    returnExprVal { m with output_bit1 := g1, output_bit2 := g2 } depth k s r
        normalize floorc mix =
      returnExprVal m depth k s r normalize floorc mix := by
  constructor
  · unfold forwardVal
    cases forwardBody m depth k s r normalize floorc mix with
    | none => rfl
    | some p =>
        simp only [Option.some_bind, ConvModule.apply_d3, transpose12_d3,
          conv_d2_transpose_none, Option.none_bind]
  · rfl
